import Mathlib

/-!
# Verification of the hierarchical organizational chart core

A shallow embedding of the data generation, visibility filtering and camera
logic of `src/OrgChartCanvas.tsx`, together with proofs of the specified
properties.  Real-valued library calls that have no exact rational semantics
(`Math.pow(r, 1.2)` and `Math.pow(r, 0.3)`) are kept as function parameters
`powBias` and `powVal`; every proved property holds for an arbitrary choice of
these functions, because the source clamps or floors their results before use.
-/

set_option autoImplicit false

namespace OrgChart

/-- A node of the organizational chart, mirroring the `Node` type of the
source: id, display name, optional parent id, level string, numeric value,
depth, world coordinates and the derived `hasChildren` flag. -/
structure Node where
  id : Nat
  name : String
  parentId : Option Nat
  level : String
  value : ℚ
  depth : Nat
  x : ℚ
  y : ℚ
  hasChildren : Bool
deriving DecidableEq

/-- The camera transform `transform.current = { scale, tx, ty }`. -/
structure Camera where
  scale : ℚ
  tx : ℚ
  ty : ℚ
deriving DecidableEq

/-- One state update of the seeded linear congruential generator
`randSeeded`: `s = (s * 1664525 + 1013904223) >>> 0`. -/
def rndNext (s : Nat) : Nat := (s * 1664525 + 1013904223) % 4294967296

/-- The value returned by one call of the generator: the source updates the
state first and then returns `s / 2**32`. -/
def rndOut (s : Nat) : ℚ := (rndNext s : ℚ) / 4294967296

/-- The retry loop inside `pickParentId`: up to `tries` further attempts; each
attempt draws `r`, forms the biased candidate `1 + ⌊powBias r * len⌋` clamped
into `[1, len]`, and stops early when the candidate still has fewer than
`maxChildren` recorded children.  When the tries run out the last candidate is
kept.  Returns the chosen pid and the advanced RNG state. -/
def pickLoop (powBias : ℚ → ℚ) (maxChildren len : Nat) (cc : Nat → Nat) :
    Nat → Nat → Nat → Nat × Nat
  | 0, s, pid => (pid, s)
  | t + 1, s, _pid =>
    let r := rndOut s
    let s1 := rndNext s
    let biased : Int := 1 + Int.floor (powBias r * (len : ℚ))
    let cand : Nat := (max 1 (min (len : Int) biased)).toNat
    if cc cand < maxChildren then (cand, s1)
    else pickLoop powBias maxChildren len cc t s1 cand

/-- `pickParentId` of the source: run the retry loop (8 tries, starting from
`pid = 1`) and record one more child for the chosen parent.  `len` is the
current `nodes.length`.  Returns `(pid, RNG state, child-count map)`. -/
def pickParentId (powBias : ℚ → ℚ) (maxChildren len : Nat) (cc : Nat → Nat) (s : Nat) :
    Nat × Nat × (Nat → Nat) :=
  let pr := pickLoop powBias maxChildren len cc 8 s 1
  (pr.1, pr.2, fun i => if i = pr.1 then cc i + 1 else cc i)

/-- The level draw `rnd()<0.15 ? "S" : rnd()<0.4 ? "A" : rnd()<0.7 ? "B" : "C"`.
JavaScript evaluates a fresh `rnd()` for every tested threshold, so between one
and three values are consumed.  Returns the level and the advanced state. -/
def drawLevel (s : Nat) : String × Nat :=
  if rndOut s < 0.15 then ("S", rndNext s)
  else if rndOut (rndNext s) < 0.4 then ("A", rndNext (rndNext s))
  else if rndOut (rndNext (rndNext s)) < 0.7 then ("B", rndNext (rndNext (rndNext s)))
  else ("C", rndNext (rndNext (rndNext s)))

/-- The display name `"M" + id.toString().padStart(5, '0')`. -/
def nodeName (id : Nat) : String :=
  let s := toString id
  "M" ++ String.mk (List.replicate (5 - s.length) '0') ++ s

/-- The root pushed first by `generateTree`: id 1, name `"ROOT"`, no parent,
level `"A"`, value 0, depth 0, at the origin. -/
def rootNode : Node :=
  { id := 1, name := "ROOT", parentId := none, level := "A", value := 0,
    depth := 0, x := 0, y := 0, hasChildren := true }

/-- One generated node: id, padded name, chosen parent, drawn level, and the
value `⌊powVal r * 200000⌋` where `r` is drawn from state `s` (depth and
coordinates are filled in later; `hasChildren` starts true as in the source). -/
def stepNode (powVal : ℚ → ℚ) (id pid : Nat) (lv : String) (s : Nat) : Node :=
  { id := id, name := nodeName id, parentId := some pid, level := lv,
    value := ((Int.floor (powVal (rndOut s) * 200000) : Int) : ℚ),
    depth := 0, x := 0, y := 0, hasChildren := true }

/-- The generation loop `for (id = 2; id <= total; id++)`: pick a parent, draw
a level, draw a value, and append the node.  `k` counts the remaining
iterations. -/
def genLoop (powBias powVal : ℚ → ℚ) (maxChildren : Nat) :
    Nat → Nat → Nat → (Nat → Nat) → List Node → List Node
  | 0, _, _, _, acc => acc
  | k + 1, id, s, cc, acc =>
    let pk := pickParentId powBias maxChildren acc.length cc s
    let lv := drawLevel pk.2.1
    genLoop powBias powVal maxChildren k (id + 1) (rndNext lv.2) pk.2.2
      (acc ++ [stepNode powVal id pk.1 lv.1 lv.2])

/-- The flat node list right after the generation loop (before the depth pass,
the layout pass and the `hasChildren` pass). -/
def generateRaw (powBias powVal : ℚ → ℚ) (total maxChildren seed : Nat) : List Node :=
  genLoop powBias powVal maxChildren (total - 1) 2 (seed % 4294967296) (fun _ => 0) [rootNode]

/-- The `childrenMap` adjacency: ids of the nodes whose `parentId` is `i`,
in list order (the source pushes while iterating the node list). -/
def childrenIds (ns : List Node) (i : Nat) : List Nat :=
  (ns.filter (fun n => decide (n.parentId = some i))).map (fun n => n.id)

/-- The BFS that recomputes `depth`: pop `pid` from the queue front, set every
child's depth to `depth pid + 1`, push the children.  `fuel` bounds the number
of pops; the source's `while (q.length)` loop needs at most one pop per node,
so a fuel of the node count is enough (proved below). -/
def bfsDepth (children : Nat → List Nat) : Nat → List Nat → (Nat → Nat) → Nat → Nat
  | 0, _, depth => depth
  | _ + 1, [], depth => depth
  | fuel + 1, pid :: rest, depth =>
    bfsDepth children fuel (rest ++ children pid)
      (fun c => if c ∈ children pid then depth pid + 1 else depth c)

/-- The per-node layout assignment: the node's layer is the list of all nodes
of its depth (in list order); with `cnt` nodes the layer spans
`width = max (cnt*60) 1200` and index `i` gets
`x = (i + 0.5) * (width / cnt) - width / 2`, `y = depth * 120`. -/
def layoutFun (ns : List Node) (n : Node) : Node :=
  let arr := ns.filter (fun m => decide (m.depth = n.depth))
  let width : ℚ := max ((arr.length : ℚ) * 60) 1200
  let i : Nat := arr.findIdx (fun m => decide (m.id = n.id))
  { n with
    x := ((i : ℚ) + 0.5) * (width / (arr.length : ℚ)) - width / 2,
    y := (n.depth : ℚ) * 120 }

/-- The layered layout pass of `generateTree`. -/
def layoutNodes (ns : List Node) : List Node := ns.map (layoutFun ns)

/-- The `hasChildren` marking: true iff some node's `parentId` equals this id. -/
def markFun (ns : List Node) (n : Node) : Node :=
  { n with hasChildren := ns.any (fun m => decide (m.parentId = some n.id)) }

/-- The `hasChildren` pass of `generateTree`. -/
def markHasChildren (ns : List Node) : List Node := ns.map (markFun ns)

/-- `generateTree(total, maxChildren, seed)`: generation loop from the root,
then the BFS depth pass, the layered layout pass and the `hasChildren` pass. -/
def generateTree (powBias powVal : ℚ → ℚ) (total maxChildren seed : Nat) : List Node :=
  let raw := generateRaw powBias powVal total maxChildren seed
  let dep := bfsDepth (childrenIds raw) raw.length [1] (fun _ => 0)
  markHasChildren (layoutNodes (raw.map (fun n => { n with depth := dep n.id })))

/-- The `nodesById` map: first node of the list with the given id. -/
def lookupId (ns : List Node) (i : Nat) : Option Node :=
  ns.find? (fun n => decide (n.id = i))

/-- Parent id of the node with id `i` (`none` when absent or at the root). -/
def parOf (ns : List Node) (i : Nat) : Option Nat :=
  match lookupId ns i with
  | some n => n.parentId
  | none => none

/-- The ancestor chain of `c` under the parent map `par`, bounded by fuel. -/
def ancChain (par : Nat → Option Nat) : Nat → Nat → List Nat
  | 0, _ => []
  | fuel + 1, c =>
    match par c with
    | none => []
    | some p => p :: ancChain par fuel p

/-- All ancestors of the id `i` (parent, grandparent, …, root); fuel `i` is
enough because parent ids strictly decrease in a well-formed list. -/
def ancestorList (ns : List Node) (i : Nat) : List Nat := ancChain (parOf ns) i i

/-- Length of the ancestor chain of id `i`. -/
def chainDepth (ns : List Node) (i : Nat) : Nat := (ancestorList ns i).length

/-- The ancestor walk inside `isVisible`: up to `fuel` steps; stop at the
root; answer `false` as soon as a parent id lies in the collapse set.  The
missing-parent lookup case cannot occur on well-formed data. -/
def ancWalk (byId : Nat → Option Node) (collapsed : Finset Nat) : Node → Nat → Bool
  | _, 0 => true
  | cur, fuel + 1 =>
    match cur.parentId with
    | none => true
    | some p =>
      if p ∈ collapsed then false
      else
        match byId p with
        | some m => ancWalk byId collapsed m fuel
        | none => true

/-- `isVisible(n)`: the depth limit, then the value threshold, then the
ancestor walk bounded by `maxDepth` steps.  Only parents are tested against
the collapse set, never the node's own id. -/
def isVisible (byId : Nat → Option Node) (collapsed : Finset Nat)
    (maxDepth : Nat) (minValue : ℚ) (n : Node) : Bool :=
  if n.depth > maxDepth then false
  else if n.value < minValue then false
  else ancWalk byId collapsed n maxDepth

/-- `screenToWorld(sx, sy) = ((sx - tx) / scale, (sy - ty) / scale)`. -/
def screenToWorld (t : Camera) (sx sy : ℚ) : ℚ × ℚ :=
  ((sx - t.tx) / t.scale, (sy - t.ty) / t.scale)

/-- `worldToScreen(wx, wy) = (wx * scale + tx, wy * scale + ty)`. -/
def worldToScreen (t : Camera) (wx wy : ℚ) : ℚ × ℚ :=
  (wx * t.scale + t.tx, wy * t.scale + t.ty)

/-- The drag handler: add screen-space deltas to the translation. -/
def panBy (t : Camera) (dx dy : ℚ) : Camera :=
  { t with tx := t.tx + dx, ty := t.ty + dy }

/-- The wheel handler's camera update at pointer `(mx, my)` with zoom factor
`factor` (`exp(-deltaY * 0.001)` in the source, kept abstract): the new scale
is `clamp(scale * factor, 0.1, 3)` and the translation is recomputed so the
world point previously under the pointer maps back to the pointer. -/
def onWheelZoom (t : Camera) (mx my factor : ℚ) : Camera :=
  let before := screenToWorld t mx my
  let ns := max 0.1 (min 3 (t.scale * factor))
  { scale := ns, tx := mx - before.1 * ns, ty := my - before.2 * ns }

/-- World positions of the nodes passing the visibility predicate. -/
def visiblePts (ns : List Node) (vis : Node → Bool) : List (ℚ × ℚ) :=
  (ns.filter vis).map (fun n => (n.x, n.y))

/-- Running minimum of a list with a start value. -/
def listMin (a : ℚ) (l : List ℚ) : ℚ := l.foldl min a

/-- Running maximum of a list with a start value. -/
def listMax (a : ℚ) (l : List ℚ) : ℚ := l.foldl max a

/-- Bounding box `(minX, maxX, minY, maxY)` of the visible nodes, `none` when
no node is visible (the source's `any` flag stays false). -/
def visBBox (ns : List Node) (vis : Node → Bool) : Option (ℚ × ℚ × ℚ × ℚ) :=
  match visiblePts ns vis with
  | [] => none
  | pt :: pts =>
    some (listMin pt.1 (pts.map Prod.fst), listMax pt.1 (pts.map Prod.fst),
      listMin pt.2 (pts.map Prod.snd), listMax pt.2 (pts.map Prod.snd))

/-- `fitToContent(padPx)`: when some node is visible, fit the bounding box:
`w = max 1 (maxX-minX)`, `h = max 1 (maxY-minY)`,
`s = clamp(min((W-2p)/w, (H-2p)/h), 0.1, 2.5)`, and translate so the box
center maps to the viewport center; otherwise leave the camera unchanged. -/
def fitToContent (ns : List Node) (vis : Node → Bool) (W H pad : ℚ) (t : Camera) : Camera :=
  match visBBox ns vis with
  | none => t
  | some (minX, maxX, minY, maxY) =>
    let w := max 1 (maxX - minX)
    let h := max 1 (maxY - minY)
    let sx := (W - pad * 2) / w
    let sy := (H - pad * 2) / h
    let s := max 0.1 (min 2.5 (min sx sy))
    { scale := s, tx := W / 2 - (minX + maxX) / 2 * s, ty := H / 2 - (minY + maxY) / 2 * s }

/-- JavaScript `toLowerCase`, embedded as per-character lowering (the
position-based `String.toLower` of the core library is not kernel-reducible;
on the generated names both agree). -/
def lowerStr (s : String) : String := String.mk (s.toList.map Char.toLower)

/-- JavaScript `trim`: strip whitespace from both ends of the string. -/
def trimStr (s : String) : String :=
  String.mk (((s.toList.dropWhile Char.isWhitespace).reverse.dropWhile
    Char.isWhitespace).reverse)

/-- JavaScript `String.prototype.includes` on character lists. -/
def strIncludes : List Char → List Char → Bool
  | [], sub => sub.isEmpty
  | hay@(_ :: t), sub => sub.isPrefixOf hay || strIncludes t sub

/-- The search predicate of `focusOnFirstMatch` for an already trimmed and
lowercased query: case-insensitive substring match on the name, or the id
printed as a string equal to the query. -/
def matchesQuery (q : String) (n : Node) : Bool :=
  strIncludes (lowerStr n.name).toList q.toList || decide (toString n.id = q)

/-- `focusOnFirstMatch()`: trim and lowercase the query; an empty query or no
match leaves the camera untouched; otherwise raise the scale to at least 0.6
and recenter the first match at `(W/2, H/4)`.  Visibility is not consulted. -/
def focusOnFirstMatch (ns : List Node) (query : String) (W H : ℚ) (t : Camera) : Camera :=
  let q := lowerStr (trimStr query)
  if q = "" then t
  else
    match ns.find? (matchesQuery q) with
    | none => t
    | some n =>
      let ts := max 0.6 t.scale
      { scale := ts, tx := W / 2 - n.x * ts, ty := H / 4 - n.y * ts }

/-- The camera-mutating operations of the component. -/
inductive CamOp where
  | pan (dx dy : ℚ)
  | wheel (mx my factor : ℚ)
  | fit (ns : List Node) (vis : Node → Bool) (W H pad : ℚ)
  | focus (ns : List Node) (query : String) (W H : ℚ)

/-- Apply one camera operation. -/
def applyOp (t : Camera) : CamOp → Camera
  | CamOp.pan dx dy => panBy t dx dy
  | CamOp.wheel mx my factor => onWheelZoom t mx my factor
  | CamOp.fit ns vis W H pad => fitToContent ns vis W H pad t
  | CamOp.focus ns query W H => focusOnFirstMatch ns query W H t

/-- `transform = useRef({ scale: 0.6, tx: 0, ty: 80 })`. -/
def initialCamera : Camera := { scale := 0.6, tx := 0, ty := 80 }

/-- The pure level decision as a function of the three potentially consumed
uniform draws (later draws are ignored on earlier branches). -/
def levelFromDraws (r1 r2 r3 : ℚ) : String :=
  if r1 < 0.15 then "S" else if r2 < 0.4 then "A" else if r3 < 0.7 then "B" else "C"

/-- Probability model for the level draws: each draw is uniform over the
20-point grid `{0/20, …, 19/20}` on `[0,1)` (the thresholds 0.15, 0.4 and 0.7
are exactly representable on this grid).  `levelCountC lev a b` counts the
third draws sending the fixed first two draws to `lev`. -/
def levelCountC (lev : String) (a b : Nat) : Nat :=
  ((List.range 20).filter (fun c =>
    decide (levelFromDraws ((a : ℚ) / 20) ((b : ℚ) / 20) ((c : ℚ) / 20) = lev))).length

/-- Count over the second and third draws for a fixed first draw. -/
def levelCountB (lev : String) (a : Nat) : Nat :=
  ((List.range 20).map (fun b => levelCountC lev a b)).sum

/-- Number of the `20³ = 8000` grid triples of uniform draws mapped to the
given level; dividing by 8000 gives the probability of the level under
independent uniform draws. -/
def levelCountGrid (lev : String) : Nat :=
  ((List.range 20).map (fun a => levelCountB lev a)).sum

/-- Decidable per-node parent condition of a well-formed list: the root (id 1)
has no parent, every other node's parent id lies in `[1, id)`. -/
def parentOkB (n : Node) : Bool :=
  match n.parentId with
  | none => decide (n.id = 1)
  | some p => decide (2 ≤ n.id) && decide (1 ≤ p) && decide (p < n.id)

/-- Well-formedness of a flat node list: ids are exactly `1..length` in list
order, the parent condition holds for every node, and every `depth` field
equals the length of the node's ancestor chain. -/
def WellFormed (ns : List Node) : Prop :=
  ns.map (fun n => n.id) = List.range' 1 ns.length
  ∧ (∀ n ∈ ns, parentOkB n = true)
  ∧ (∀ n ∈ ns, n.depth = chainDepth ns n.id)

instance wellFormedDecidable (ns : List Node) : Decidable (WellFormed ns) := by
  unfold WellFormed
  infer_instance

/-- Invariant maintained by the generation loop: ids are exactly `1..length`
in list order, the head is the root node, and every node satisfies the parent
condition. -/
def GenInv (acc : List Node) : Prop :=
  acc.map (fun n => n.id) = List.range' 1 acc.length
  ∧ acc.head? = some rootNode
  ∧ (∀ n ∈ acc, parentOkB n = true)

/-! ### Concrete data for witnesses and counterexamples -/

/-- A concrete well-formed three-node chain `1 ← 2 ← 3`. -/
def chain3 : List Node :=
  [{ id := 1, name := "ROOT", parentId := none, level := "A", value := 0,
     depth := 0, x := 0, y := 0, hasChildren := true },
   { id := 2, name := "M00002", parentId := some 1, level := "B", value := 5,
     depth := 1, x := 0, y := 120, hasChildren := true },
   { id := 3, name := "M00003", parentId := some 2, level := "C", value := 7,
     depth := 2, x := 0, y := 240, hasChildren := false }]

/-- The middle node of `chain3`. -/
def node2 : Node :=
  { id := 2, name := "M00002", parentId := some 1, level := "B", value := 5,
    depth := 1, x := 0, y := 120, hasChildren := true }

/-- The leaf node of `chain3`. -/
def node3 : Node :=
  { id := 3, name := "M00003", parentId := some 2, level := "C", value := 7,
    depth := 2, x := 0, y := 240, hasChildren := false }

/-- The generated 2-node tree with seed 42 (concrete run of the pipeline). -/
def treeC5 : List Node := generateTree (fun r => r) (fun r => r) 2 4 42

/-! ### Claim C3 -/

/-- Specification of a well-formed generated tree with `total` nodes: ids are
exactly `1..total` in order; node 1 is the unique parentless node and has
depth 0; every other node's parent id is a strictly smaller id present in the
set; every depth equals the ancestor-chain length, no id is its own ancestor,
and each child is exactly one deeper than its parent. -/
def TreeSpec (ns : List Node) (total : Nat) : Prop :=
  ns.map (fun n => n.id) = List.range' 1 total
  ∧ (∀ n ∈ ns, (n.parentId = none ↔ n.id = 1))
  ∧ (∀ n ∈ ns, n.id = 1 → n.depth = 0)
  ∧ (∀ n ∈ ns, 2 ≤ n.id → ∃ p, n.parentId = some p ∧ 1 ≤ p ∧ p < n.id
      ∧ p ∈ ns.map (fun n => n.id))
  ∧ (∀ n ∈ ns, n.depth = chainDepth ns n.id)
  ∧ (∀ n ∈ ns, n.id ∉ ancestorList ns n.id)
  ∧ (∀ n ∈ ns, ∀ p, n.parentId = some p → ∃ m ∈ ns, m.id = p ∧ n.depth = m.depth + 1)

/-! ### Claim C7 -/

/-- Effects of toggling the collapse state of a node `c` (C7): inserting
`c.id` hides exactly the nodes having `c` in their ancestor chain and changes
no other node's visibility (in particular neither `c` itself nor any of its
ancestors); erasing `c.id` again restores the previous collapse set exactly;
and collapsing the root hides every non-root node. -/
def CollapseSpec (ns : List Node) (c : Node) (coll : Finset Nat)
    (maxDepth : Nat) (minValue : ℚ) : Prop :=
  (∀ d ∈ ns, c.id ∈ ancestorList ns d.id →
    isVisible (lookupId ns) (insert c.id coll) maxDepth minValue d = false)
  ∧ (∀ d ∈ ns, c.id ∉ ancestorList ns d.id →
    isVisible (lookupId ns) (insert c.id coll) maxDepth minValue d
      = isVisible (lookupId ns) coll maxDepth minValue d)
  ∧ ((insert c.id coll).erase c.id = coll)
  ∧ (∀ d ∈ ns, d.id ∈ ancestorList ns c.id →
    isVisible (lookupId ns) (insert c.id coll) maxDepth minValue d
      = isVisible (lookupId ns) coll maxDepth minValue d)
  ∧ (c.id ∉ ancestorList ns c.id)
  ∧ (c.id = 1 → ∀ d ∈ ns, 2 ≤ d.id →
    isVisible (lookupId ns) (insert c.id coll) maxDepth minValue d = false)

/-- Concrete node at world position `(-500, 0)`. -/
def nodeA : Node :=
  { id := 1, name := "ROOT", parentId := none, level := "A", value := 0,
    depth := 0, x := -500, y := 0, hasChildren := true }

/-- Concrete node at world position `(500, 10)`. -/
def nodeB : Node :=
  { id := 2, name := "M00002", parentId := some 1, level := "B", value := 0,
    depth := 1, x := 500, y := 10, hasChildren := false }

/-- A two-node list with a wide, non-degenerate bounding box. -/
def nsC4 : List Node := [nodeA, nodeB]

/-! ### Claim C8 -/

/-- The generated one-node tree (just the root, value 0). -/
def treeC8 : List Node := generateTree (fun r => r) (fun r => r) 1 1 42

/-! ### Structure of the generated raw node list -/

theorem pickLoop_bound (powBias : ℚ → ℚ) (mc len : Nat) (cc : Nat → Nat) (hlen : 1 ≤ len) :
    ∀ t s pid, 1 ≤ pid → pid ≤ len →
      1 ≤ (pickLoop powBias mc len cc t s pid).1 ∧ (pickLoop powBias mc len cc t s pid).1 ≤ len := by
  intro t
  induction t with
  | zero => intro s pid h1 h2; exact ⟨h1, h2⟩
  | succ t ih =>
    intro s pid h1 h2
    have hcand : ∀ b : Int,
        1 ≤ (max 1 (min (len : Int) b)).toNat ∧ (max 1 (min (len : Int) b)).toNat ≤ len := by
      intro b
      constructor <;> omega
    simp only [pickLoop]
    split
    · exact hcand _
    · exact ih _ _ (hcand _).1 (hcand _).2

theorem pickParentId_bound (powBias : ℚ → ℚ) (mc len : Nat) (cc : Nat → Nat) (s : Nat)
    (hlen : 1 ≤ len) :
    1 ≤ (pickParentId powBias mc len cc s).1 ∧ (pickParentId powBias mc len cc s).1 ≤ len :=
  pickLoop_bound powBias mc len cc hlen 8 s 1 le_rfl hlen

theorem GenInv.append (acc : List Node) (n : Node) (h : GenInv acc)
    (hid : n.id = acc.length + 1) (hpar : parentOkB n = true) (hne : acc ≠ []) :
    GenInv (acc ++ [n]) := by
  obtain ⟨hmap, hhead, hok⟩ := h
  refine ⟨?_, ?_, ?_⟩
  · have h1 : (acc ++ [n]).map (fun m => m.id) = List.range' 1 acc.length ++ [1 + acc.length] := by
      simp [hmap, hid, Nat.add_comm]
    rw [h1, List.length_append, ← List.range'_1_concat]
    rfl
  · rw [List.head?_append_of_ne_nil _ hne]
    exact hhead
  · intro m hm
    rcases List.mem_append.mp hm with hmem | hmem
    · exact hok m hmem
    · rw [List.mem_singleton.mp hmem]
      exact hpar

theorem stepNode_parentOk (powVal : ℚ → ℚ) (id pid : Nat) (lv : String) (s : Nat)
    (h2 : 2 ≤ id) (hp1 : 1 ≤ pid) (hp2 : pid < id) :
    parentOkB (stepNode powVal id pid lv s) = true := by
  simp only [stepNode, parentOkB, Bool.and_eq_true, decide_eq_true_eq]
  omega

theorem genLoop_spec (powBias powVal : ℚ → ℚ) (mc : Nat) :
    ∀ k s cc acc, GenInv acc → 1 ≤ acc.length →
      GenInv (genLoop powBias powVal mc k (acc.length + 1) s cc acc)
      ∧ (genLoop powBias powVal mc k (acc.length + 1) s cc acc).length = acc.length + k := by
  intro k
  induction k with
  | zero => intro s cc acc h hl; exact ⟨h, rfl⟩
  | succ k ih =>
    intro s cc acc h hl
    have hpid := pickParentId_bound powBias mc acc.length cc s hl
    have hne : acc ≠ [] := by
      intro hc
      rw [hc] at hl
      simp at hl
    have hpar := stepNode_parentOk powVal (acc.length + 1)
      (pickParentId powBias mc acc.length cc s).1
      (drawLevel (pickParentId powBias mc acc.length cc s).2.1).1
      (drawLevel (pickParentId powBias mc acc.length cc s).2.1).2
      (by omega) hpid.1 (by omega)
    have hinv2 := GenInv.append acc _ h rfl hpar hne
    have hlen2 : (acc ++ [stepNode powVal (acc.length + 1)
        (pickParentId powBias mc acc.length cc s).1
        (drawLevel (pickParentId powBias mc acc.length cc s).2.1).1
        (drawLevel (pickParentId powBias mc acc.length cc s).2.1).2]).length
        = acc.length + 1 := by simp
    have hih := ih (rndNext (drawLevel (pickParentId powBias mc acc.length cc s).2.1).2)
      (pickParentId powBias mc acc.length cc s).2.2 _ hinv2 (by rw [hlen2]; omega)
    rw [hlen2] at hih
    simp only [genLoop]
    exact ⟨hih.1, by rw [hih.2]; omega⟩

theorem generateRaw_spec (powBias powVal : ℚ → ℚ) (total mc seed : Nat) :
    GenInv (generateRaw powBias powVal total mc seed)
    ∧ (generateRaw powBias powVal total mc seed).length = max 1 total := by
  have hroot : GenInv [rootNode] := by
    refine ⟨rfl, rfl, ?_⟩
    intro n hn
    rw [List.mem_singleton.mp hn]
    rfl
  have h := genLoop_spec powBias powVal mc (total - 1) (seed % 4294967296)
    (fun _ => 0) [rootNode] hroot (by simp)
  norm_num at h
  unfold generateRaw
  exact ⟨h.1, by rw [h.2]; omega⟩

/-! ### Lookup and ancestor-chain lemmas -/

theorem lookupId_of_mem {ns : List Node} (hnd : (ns.map (fun n => n.id)).Nodup)
    {n : Node} (hn : n ∈ ns) : lookupId ns n.id = some n := by
  induction ns with
  | nil => cases hn
  | cons a t ih =>
    simp only [List.map_cons, List.nodup_cons] at hnd
    rcases List.mem_cons.mp hn with rfl | hmem
    · simp [lookupId, List.find?_cons_of_pos]
    · have hne : ¬ (a.id = n.id) := by
        intro hc
        exact hnd.1 (hc ▸ List.mem_map_of_mem (fun m => m.id) hmem)
      unfold lookupId
      rw [List.find?_cons_of_neg _ (by simpa using hne)]
      exact ih hnd.2 hmem

theorem lookupId_mem {ns : List Node} {i : Nat} {m : Node} (h : lookupId ns i = some m) :
    m ∈ ns ∧ m.id = i := by
  refine ⟨List.mem_of_find?_eq_some h, ?_⟩
  have := List.find?_some h
  simpa using this

theorem lookupId_exists {ns : List Node}
    (hmap : ns.map (fun n => n.id) = List.range' 1 ns.length)
    {i : Nat} (h1 : 1 ≤ i) (h2 : i ≤ ns.length) :
    ∃ m, lookupId ns i = some m ∧ m.id = i ∧ m ∈ ns := by
  have hi : i ∈ ns.map (fun n => n.id) := by
    rw [hmap]
    simp only [List.mem_range'_1]
    omega
  obtain ⟨m, hm, hmi⟩ := List.mem_map.mp hi
  have hl := lookupId_of_mem (hmap ▸ List.nodup_range' 1 ns.length) hm
  rw [hmi] at hl
  exact ⟨m, hl, hmi, hm⟩

theorem parOf_of_mem {ns : List Node} (hnd : (ns.map (fun n => n.id)).Nodup)
    {n : Node} (hn : n ∈ ns) : parOf ns n.id = n.parentId := by
  unfold parOf
  rw [lookupId_of_mem hnd hn]

theorem parOf_dec {ns : List Node}
    (hmap : ns.map (fun n => n.id) = List.range' 1 ns.length)
    (hok : ∀ n ∈ ns, parentOkB n = true) :
    ∀ c p, parOf ns c = some p → 1 ≤ p ∧ p < c := by
  intro c p h
  unfold parOf at h
  cases hl : lookupId ns c with
  | none => rw [hl] at h; cases h
  | some m =>
    rw [hl] at h
    have h2 : m.parentId = some p := h
    obtain ⟨hmem, hid⟩ := lookupId_mem hl
    have hb := hok m hmem
    unfold parentOkB at hb
    rw [h2] at hb
    simp only [Bool.and_eq_true, decide_eq_true_eq] at hb
    omega

theorem parOf_isSome {ns : List Node}
    (hmap : ns.map (fun n => n.id) = List.range' 1 ns.length)
    (hok : ∀ n ∈ ns, parentOkB n = true)
    {c : Nat} (h2 : 2 ≤ c) (hc : c ≤ ns.length) : ∃ p, parOf ns c = some p := by
  obtain ⟨m, hl, hid, hmem⟩ := lookupId_exists hmap (by omega) hc
  have hb := hok m hmem
  unfold parentOkB at hb
  cases hpm : m.parentId with
  | none =>
    rw [hpm] at hb
    simp only [decide_eq_true_eq] at hb
    omega
  | some q =>
    refine ⟨q, ?_⟩
    unfold parOf
    rw [hl]
    exact hpm

theorem ancChain_fuel {par : Nat → Option Nat}
    (hdec : ∀ c p, par c = some p → 1 ≤ p ∧ p < c) :
    ∀ c f, c ≤ f → ancChain par f c = ancChain par c c := by
  intro c
  induction c using Nat.strong_induction_on with
  | _ c ih =>
    intro f hf
    cases c with
    | zero =>
      have hz : par 0 = none := by
        cases h : par 0 with
        | none => rfl
        | some p => have := hdec 0 p h; omega
      cases f with
      | zero => rfl
      | succ f1 => simp [ancChain, hz]
    | succ c1 =>
      cases f with
      | zero => omega
      | succ f1 =>
        cases h : par (c1 + 1) with
        | none => simp [ancChain, h]
        | some p =>
          have hp := hdec _ _ h
          simp only [ancChain, h]
          rw [ih p (by omega) f1 (by omega), ih p (by omega) c1 (by omega)]

theorem ancChain_cons {par : Nat → Option Nat}
    (hdec : ∀ c p, par c = some p → 1 ≤ p ∧ p < c)
    {c p : Nat} (h : par c = some p) :
    ancChain par c c = p :: ancChain par p p := by
  have h1 := hdec c p h
  cases c with
  | zero => omega
  | succ c1 =>
    simp only [ancChain, h]
    rw [ancChain_fuel hdec p c1 (by omega)]

theorem ancChain_lt {par : Nat → Option Nat}
    (hdec : ∀ c p, par c = some p → 1 ≤ p ∧ p < c) :
    ∀ f c a, a ∈ ancChain par f c → a < c := by
  intro f
  induction f with
  | zero => intro c a ha; cases ha
  | succ f ih =>
    intro c a ha
    cases h : par c with
    | none => rw [ancChain, h] at ha; cases ha
    | some p =>
      rw [ancChain, h] at ha
      rcases List.mem_cons.mp ha with rfl | hmem
      · exact (hdec c a h).2
      · exact lt_trans (ih p a hmem) (hdec c p h).2

theorem ancestorList_lt {ns : List Node}
    (hmap : ns.map (fun n => n.id) = List.range' 1 ns.length)
    (hok : ∀ n ∈ ns, parentOkB n = true) :
    ∀ c a, a ∈ ancestorList ns c → a < c := by
  intro c a ha
  exact ancChain_lt (parOf_dec hmap hok) c c a ha

theorem one_mem_ancestorList {ns : List Node}
    (hmap : ns.map (fun n => n.id) = List.range' 1 ns.length)
    (hok : ∀ n ∈ ns, parentOkB n = true) :
    ∀ c, 2 ≤ c → c ≤ ns.length → 1 ∈ ancestorList ns c := by
  intro c
  induction c using Nat.strong_induction_on with
  | _ c ih =>
    intro h2 hc
    obtain ⟨p, hp⟩ := parOf_isSome hmap hok h2 hc
    have hd := parOf_dec hmap hok c p hp
    rw [ancestorList, ancChain_cons (parOf_dec hmap hok) hp]
    rcases Nat.lt_or_ge p 2 with h1 | h1
    · have : p = 1 := by omega
      rw [this]
      exact List.mem_cons_self _ _
    · exact List.mem_cons_of_mem _ (ih p (by omega) h1 (by omega))

/-! ### Correctness of the BFS depth pass -/

theorem ancChain_length_succ {par : Nat → Option Nat}
    (hdec : ∀ c p, par c = some p → 1 ≤ p ∧ p < c)
    {c p : Nat} (h : par c = some p) :
    (ancChain par c c).length = (ancChain par p p).length + 1 := by
  rw [ancChain_cons hdec h]
  rfl

/-- Main invariant argument: running the BFS with enough fuel computes the
ancestor-chain length for every id in `[1, total]`.  `popped` is the (ghost)
list of already processed ids. -/
theorem bfsDepth_go {total : Nat} {par : Nat → Option Nat} {children : Nat → List Nat}
    (hdec : ∀ c p, par c = some p → 1 ≤ p ∧ p < c)
    (hdef : ∀ c, 2 ≤ c → c ≤ total → ∃ p, par c = some p)
    (hchil : ∀ i c, c ∈ children i ↔ (2 ≤ c ∧ c ≤ total ∧ par c = some i))
    (hnodupc : ∀ i, (children i).Nodup) :
    ∀ fuel popped q depth,
      (popped ++ q).Nodup →
      (∀ c, c ∈ popped ++ q ↔ (c = 1 ∨ ∃ p ∈ popped, c ∈ children p)) →
      (∀ c ∈ popped ++ q, depth c = (ancChain par c c).length) →
      total ≤ fuel + popped.length →
      ∀ c, 1 ≤ c → c ≤ total →
        bfsDepth children fuel q depth c = (ancChain par c c).length := by
  intro fuel
  induction fuel with
  | zero =>
    intro popped q depth hnd hmem hdep hfuel c h1 hc
    have hpopnd : popped.Nodup := (List.nodup_append.mp hnd).1
    have hsub : popped.toFinset ⊆ (List.range' 1 total).toFinset := by
      intro x hx
      have hx2 : x ∈ popped ++ q := List.mem_append_left q (List.mem_toFinset.mp hx)
      rcases (hmem x).mp hx2 with rfl | ⟨p, _, hcp⟩
      · simp only [List.mem_toFinset, List.mem_range'_1]
        omega
      · have := (hchil p x).mp hcp
        simp only [List.mem_toFinset, List.mem_range'_1]
        omega
    have hcard1 : popped.toFinset.card = popped.length := List.toFinset_card_of_nodup hpopnd
    have hcard2 : (List.range' 1 total).toFinset.card = total := by
      rw [List.toFinset_card_of_nodup (List.nodup_range' 1 total)]
      simp
    have heq := Finset.eq_of_subset_of_card_le hsub (by omega)
    have hcp : c ∈ popped := by
      have : c ∈ (List.range' 1 total).toFinset := by
        simp only [List.mem_toFinset, List.mem_range'_1]
        omega
      rw [← heq] at this
      exact List.mem_toFinset.mp this
    exact hdep c (List.mem_append_left q hcp)
  | succ fuel ih =>
    intro popped q depth hnd hmem hdep hfuel c h1 hc
    cases q with
    | nil =>
      have hall : ∀ x, 1 ≤ x → x ≤ total → x ∈ popped := by
        intro x
        induction x using Nat.strong_induction_on with
        | _ x ihx =>
          intro hx1 hx2
          rcases Nat.lt_or_ge x 2 with hlt | h2
          · have hx : x = 1 := by omega
            subst hx
            have := (hmem 1).mpr (Or.inl rfl)
            simpa using this
          · obtain ⟨p, hp⟩ := hdef x h2 hx2
            have hpd := hdec x p hp
            have hpin : p ∈ popped := ihx p (by omega) (by omega) (by omega)
            have := (hmem x).mpr (Or.inr ⟨p, hpin, (hchil p x).mpr ⟨h2, hx2, hp⟩⟩)
            simpa using this
      exact hdep c (List.mem_append_left [] (hall c h1 hc))
    | cons pid rest =>
      have hpid_old : pid ∈ popped ++ pid :: rest := by simp
      have hsplit := List.nodup_append.mp hnd
      have hpid_not : pid ∉ popped := by
        intro hx
        exact hsplit.2.2 hx (by simp)
      have hfresh : ∀ k ∈ children pid, k ∉ popped ++ pid :: rest := by
        intro k hk hkin
        have hkc := (hchil pid k).mp hk
        rcases (hmem k).mp hkin with rfl | ⟨p2, hp2, hkp2⟩
        · omega
        · have hk2 := (hchil p2 k).mp hkp2
          have hpp : p2 = pid := by
            have h3 := hk2.2.2
            have h4 := hkc.2.2
            rw [h3] at h4
            exact Option.some_inj.mp h4
          exact hpid_not (hpp ▸ hp2)
      have hrearr : (popped ++ [pid]) ++ (rest ++ children pid)
          = (popped ++ pid :: rest) ++ children pid := by
        simp
      have hnd2 : ((popped ++ [pid]) ++ (rest ++ children pid)).Nodup := by
        rw [hrearr]
        rw [List.nodup_append]
        refine ⟨hnd, hnodupc pid, ?_⟩
        intro a ha hak
        exact hfresh a hak ha
      have hmem2 : ∀ x, x ∈ (popped ++ [pid]) ++ (rest ++ children pid)
          ↔ (x ∈ popped ++ pid :: rest ∨ x ∈ children pid) := by
        intro x
        rw [hrearr]
        simp only [List.mem_append, List.mem_cons]
      have hmem3 : ∀ x, x ∈ (popped ++ [pid]) ++ (rest ++ children pid)
          ↔ (x = 1 ∨ ∃ p ∈ popped ++ [pid], x ∈ children p) := by
        intro x
        rw [hmem2 x]
        constructor
        · intro hx
          rcases hx with hx | hx
          · rcases (hmem x).mp hx with hx1 | ⟨p, hp, hxp⟩
            · exact Or.inl hx1
            · exact Or.inr ⟨p, List.mem_append_left [pid] hp, hxp⟩
          · exact Or.inr ⟨pid, by simp, hx⟩
        · intro hx
          rcases hx with hx1 | ⟨p, hp, hxp⟩
          · exact Or.inl ((hmem x).mpr (Or.inl hx1))
          · rcases List.mem_append.mp hp with hp | hp
            · exact Or.inl ((hmem x).mpr (Or.inr ⟨p, hp, hxp⟩))
            · rw [List.mem_singleton.mp hp] at hxp
              exact Or.inr hxp
      have hdep2 : ∀ x ∈ (popped ++ [pid]) ++ (rest ++ children pid),
          (fun c2 => if c2 ∈ children pid then depth pid + 1 else depth c2) x
            = (ancChain par x x).length := by
        intro x hx
        rcases (hmem2 x).mp hx with hxo | hxk
        · have hnk : x ∉ children pid := fun hk => hfresh x hk hxo
          simp only [hnk, if_false]
          exact hdep x hxo
        · have hxc := (hchil pid x).mp hxk
          simp only [hxk, if_true]
          rw [hdep pid hpid_old, ancChain_length_succ hdec hxc.2.2]
      have hfuel2 : total ≤ fuel + (popped ++ [pid]).length := by
        simp only [List.length_append, List.length_singleton]
        omega
      exact ih (popped ++ [pid]) (rest ++ children pid)
        (fun c2 => if c2 ∈ children pid then depth pid + 1 else depth c2)
        hnd2 hmem3 hdep2 hfuel2 c h1 hc

theorem childrenIds_mem {ns : List Node}
    (hmap : ns.map (fun n => n.id) = List.range' 1 ns.length)
    (hok : ∀ n ∈ ns, parentOkB n = true) :
    ∀ i c, c ∈ childrenIds ns i ↔ (2 ≤ c ∧ c ≤ ns.length ∧ parOf ns c = some i) := by
  intro i c
  constructor
  · intro h
    obtain ⟨n, hn, hni⟩ := List.mem_map.mp h
    have hnmem : n ∈ ns := (List.mem_filter.mp hn).1
    have hnp : n.parentId = some i := by
      have := (List.mem_filter.mp hn).2
      simpa using this
    have hpar : parOf ns c = some i := by
      rw [← hni, parOf_of_mem (hmap ▸ List.nodup_range' 1 ns.length) hnmem]
      exact hnp
    have hd := parOf_dec hmap hok c i hpar
    have hcle : c ≤ ns.length := by
      have hmm : c ∈ ns.map (fun n => n.id) := hni ▸ List.mem_map_of_mem _ hnmem
      rw [hmap] at hmm
      simp only [List.mem_range'_1] at hmm
      omega
    exact ⟨by omega, hcle, hpar⟩
  · rintro ⟨h2, hc, hp⟩
    obtain ⟨m, hl, hid, hmem⟩ := lookupId_exists hmap (by omega) hc
    have hmp : m.parentId = some i := by
      have hpm := parOf_of_mem (hmap ▸ List.nodup_range' 1 ns.length) hmem
      rw [hid] at hpm
      rw [← hpm]
      exact hp
    unfold childrenIds
    exact List.mem_map.mpr ⟨m, List.mem_filter.mpr ⟨hmem, by simp [hmp]⟩, hid⟩

theorem childrenIds_nodup {ns : List Node}
    (hmap : ns.map (fun n => n.id) = List.range' 1 ns.length) (i : Nat) :
    (childrenIds ns i).Nodup := by
  have hnd : (ns.map (fun n => n.id)).Nodup := hmap ▸ List.nodup_range' 1 ns.length
  unfold childrenIds
  have hsub : ((ns.filter (fun n => decide (n.parentId = some i))).map
      (fun n => n.id)).Sublist (ns.map (fun n => n.id)) :=
    (List.filter_sublist ns).map _
  exact List.Nodup.sublist hsub hnd

theorem parOf_one {ns : List Node}
    (hmap : ns.map (fun n => n.id) = List.range' 1 ns.length)
    (hok : ∀ n ∈ ns, parentOkB n = true) : parOf ns 1 = none := by
  cases h : parOf ns 1 with
  | none => rfl
  | some p => have := parOf_dec hmap hok 1 p h; omega

/-- The BFS pass of `generateTree` computes the ancestor-chain length for
every id of the raw list. -/
theorem generateRaw_depth (powBias powVal : ℚ → ℚ) (total mc seed : Nat) :
    ∀ c, 1 ≤ c → c ≤ (generateRaw powBias powVal total mc seed).length →
      bfsDepth (childrenIds (generateRaw powBias powVal total mc seed))
          (generateRaw powBias powVal total mc seed).length [1] (fun _ => 0) c
        = (ancChain (parOf (generateRaw powBias powVal total mc seed)) c c).length := by
  obtain ⟨⟨hmap, hhead, hok⟩, hlen⟩ := generateRaw_spec powBias powVal total mc seed
  intro c h1 hc
  refine bfsDepth_go (parOf_dec hmap hok)
    (fun c h2 hc => parOf_isSome hmap hok h2 hc)
    (childrenIds_mem hmap hok) (childrenIds_nodup hmap)
    _ [] [1] (fun _ => 0) (by simp) (by simp) ?_ (by simp) c h1 hc
  intro x hx
  have hx1 : x = 1 := by simpa using hx
  subst hx1
  simp [ancChain, parOf_one hmap hok]

/-! ### Preservation through the depth, layout and hasChildren passes -/

theorem map_pres_ids {ns : List Node} {h : Node → Node} (hid : ∀ n, (h n).id = n.id) :
    (ns.map h).map (fun n => n.id) = ns.map (fun n => n.id) := by
  rw [List.map_map]
  exact List.map_congr_left (fun a _ => by simp [Function.comp, hid a])

theorem parOf_map {ns : List Node} {h : Node → Node}
    (hid : ∀ n, (h n).id = n.id) (hpar : ∀ n, (h n).parentId = n.parentId) (i : Nat) :
    parOf (ns.map h) i = parOf ns i := by
  unfold parOf lookupId
  rw [List.find?_map]
  have hfp : ((fun n => decide (n.id = i)) ∘ h) = (fun n : Node => decide (n.id = i)) :=
    funext fun n => by simp [Function.comp, hid n]
  rw [hfp]
  cases hf : ns.find? (fun n => decide (n.id = i)) with
  | none => rfl
  | some m => simp [hpar m]

theorem ancChain_congr {p1 p2 : Nat → Option Nat} (h : ∀ c, p1 c = p2 c) :
    ∀ f c, ancChain p1 f c = ancChain p2 f c := by
  intro f
  induction f with
  | zero => intro c; rfl
  | succ f ih =>
    intro c
    simp only [ancChain, h c]
    cases p2 c with
    | none => rfl
    | some p => simp [ih p]

theorem chainDepth_map {ns : List Node} {h : Node → Node}
    (hid : ∀ n, (h n).id = n.id) (hpar : ∀ n, (h n).parentId = n.parentId) (i : Nat) :
    chainDepth (ns.map h) i = chainDepth ns i := by
  unfold chainDepth ancestorList
  rw [ancChain_congr (parOf_map hid hpar) i i]

theorem parentOkB_congr {m n : Node} (hid : m.id = n.id) (hpar : m.parentId = n.parentId) :
    parentOkB m = parentOkB n := by
  unfold parentOkB
  rw [hid, hpar]

/-- A pass that preserves id, parent and depth of every node (layout and
`hasChildren` marking) preserves well-formedness. -/
theorem wellFormed_map {h : Node → Node}
    (hid : ∀ n, (h n).id = n.id) (hpar : ∀ n, (h n).parentId = n.parentId)
    (hdep : ∀ n, (h n).depth = n.depth) {ns : List Node} (hwf : WellFormed ns) :
    WellFormed (ns.map h) := by
  obtain ⟨h1, h2, h3⟩ := hwf
  refine ⟨?_, ?_, ?_⟩
  · rw [map_pres_ids hid, List.length_map, h1]
  · intro m hm
    obtain ⟨n, hn, hnm⟩ := List.mem_map.mp hm
    rw [← hnm, parentOkB_congr (hid n) (hpar n)]
    exact h2 n hn
  · intro m hm
    obtain ⟨n, hn, hnm⟩ := List.mem_map.mp hm
    have hcd : chainDepth (ns.map h) m.id = chainDepth ns m.id :=
      chainDepth_map hid hpar m.id
    rw [hcd, ← hnm, hid n, hdep n]
    exact h3 n hn

/-- Overwriting every depth with the ancestor-chain length yields a
well-formed list. -/
theorem wellFormed_withDepth (raw : List Node) (dep : Nat → Nat)
    (hmap : raw.map (fun n => n.id) = List.range' 1 raw.length)
    (hok : ∀ n ∈ raw, parentOkB n = true)
    (hdep : ∀ c, 1 ≤ c → c ≤ raw.length →
      dep c = (ancChain (parOf raw) c c).length) :
    WellFormed (raw.map (fun n => { n with depth := dep n.id })) := by
  have hids : (raw.map (fun n => ({ n with depth := dep n.id } : Node))).map (fun n => n.id)
      = raw.map (fun n => n.id) := by
    apply map_pres_ids
    intro n
    rfl
  refine ⟨?_, ?_, ?_⟩
  · rw [hids, List.length_map, hmap]
  · intro m hm
    obtain ⟨n, hn, hnm⟩ := List.mem_map.mp hm
    have hpb : parentOkB ({ n with depth := dep n.id } : Node) = parentOkB n :=
      parentOkB_congr rfl rfl
    rw [← hnm, hpb]
    exact hok n hn
  · intro m hm
    obtain ⟨n, hn, hnm⟩ := List.mem_map.mp hm
    have hb : 1 ≤ n.id ∧ n.id ≤ raw.length := by
      have hmm : n.id ∈ raw.map (fun n => n.id) := List.mem_map_of_mem _ hn
      rw [hmap] at hmm
      simp only [List.mem_range'_1] at hmm
      omega
    have hcd : chainDepth (raw.map (fun k => ({ k with depth := dep k.id } : Node))) n.id
        = chainDepth raw n.id := by
      apply chainDepth_map
      · intro k; rfl
      · intro k; rfl
    rw [← hnm]
    show dep n.id
      = chainDepth (raw.map (fun k => ({ k with depth := dep k.id } : Node))) n.id
    rw [hcd, hdep n.id hb.1 hb.2]
    rfl

/-- Well-formedness and length of the full `generateTree` pipeline, for
arbitrary inputs (including the degenerate `total = 0`). -/
theorem generateTree_wf (powBias powVal : ℚ → ℚ) (total mc seed : Nat) :
    WellFormed (generateTree powBias powVal total mc seed)
    ∧ (generateTree powBias powVal total mc seed).length = max 1 total := by
  obtain ⟨⟨hmap, hhead, hok⟩, hlen⟩ := generateRaw_spec powBias powVal total mc seed
  have hdepth := generateRaw_depth powBias powVal total mc seed
  have hw1 := wellFormed_withDepth (generateRaw powBias powVal total mc seed)
    (bfsDepth (childrenIds (generateRaw powBias powVal total mc seed))
      (generateRaw powBias powVal total mc seed).length [1] (fun _ => 0))
    hmap hok hdepth
  constructor
  · apply wellFormed_map
    · intro n; rfl
    · intro n; rfl
    · intro n; rfl
    · apply wellFormed_map
      · intro n; rfl
      · intro n; rfl
      · intro n; rfl
      · exact hw1
  · simp only [generateTree, markHasChildren, layoutNodes, List.length_map]
    exact hlen

/-! ### Characterization of the visibility predicate -/

theorem ancChain_eq_nil {par : Nat → Option Nat} {c : Nat} (h : par c = none) :
    ∀ f, ancChain par f c = [] := by
  intro f
  cases f with
  | zero => rfl
  | succ f => simp [ancChain, h]

/-- The bounded ancestor walk of the source agrees with the full ancestor
chain as soon as the fuel covers the chain length. -/
theorem ancWalk_iff {ns : List Node} (hwf : WellFormed ns) (coll : Finset Nat) :
    ∀ n ∈ ns, ∀ fuel, chainDepth ns n.id ≤ fuel →
      (ancWalk (lookupId ns) coll n fuel = true
        ↔ ∀ a ∈ ancestorList ns n.id, a ∉ coll) := by
  obtain ⟨hmap, hok, hdep⟩ := hwf
  have hnd : (ns.map (fun n => n.id)).Nodup := hmap ▸ List.nodup_range' 1 ns.length
  have hdec := parOf_dec hmap hok
  suffices h : ∀ i, ∀ n ∈ ns, n.id = i → ∀ fuel, chainDepth ns n.id ≤ fuel →
      (ancWalk (lookupId ns) coll n fuel = true
        ↔ ∀ a ∈ ancestorList ns n.id, a ∉ coll) by
    intro n hn fuel hf
    exact h n.id n hn rfl fuel hf
  intro i
  induction i using Nat.strong_induction_on with
  | _ i ih =>
    intro n hn hni fuel hf
    subst hni
    cases hpn : n.parentId with
    | none =>
      have hpar : parOf ns n.id = none := by
        rw [parOf_of_mem hnd hn]
        exact hpn
      have hchain : ancestorList ns n.id = [] := ancChain_eq_nil hpar n.id
      rw [hchain]
      simp only [List.not_mem_nil, false_implies, implies_true, iff_true]
      cases fuel with
      | zero => rfl
      | succ f => simp [ancWalk, hpn]
    | some p =>
      have hpar : parOf ns n.id = some p := by
        rw [parOf_of_mem hnd hn]
        exact hpn
      have hpd := hdec n.id p hpar
      have hidrange : 1 ≤ n.id ∧ n.id ≤ ns.length := by
        have hmm : n.id ∈ ns.map (fun n => n.id) := List.mem_map_of_mem _ hn
        rw [hmap] at hmm
        simp only [List.mem_range'_1] at hmm
        omega
      obtain ⟨m, hlm, hmi, hmmem⟩ := lookupId_exists hmap hpd.1 (by omega)
      have hchain : ancestorList ns n.id = p :: ancestorList ns p :=
        ancChain_cons hdec hpar
      have hcl : chainDepth ns n.id = chainDepth ns p + 1 := by
        unfold chainDepth
        rw [hchain]
        rfl
      cases fuel with
      | zero => omega
      | succ f =>
        have hstep : ancWalk (lookupId ns) coll n (f + 1)
            = if p ∈ coll then false else ancWalk (lookupId ns) coll m f := by
          simp [ancWalk, hpn, hlm]
        rw [hstep, hchain]
        by_cases hpc : p ∈ coll
        · rw [if_pos hpc]
          constructor
          · intro hfalse
            simp at hfalse
          · intro hall
            exact absurd hpc (hall p (List.mem_cons_self p _))
        · rw [if_neg hpc]
          have hfm : chainDepth ns p ≤ f := by omega
          have hrec := ih p (by omega) m hmmem hmi f (by rw [hmi]; exact hfm)
          rw [hmi] at hrec
          rw [hrec]
          constructor
          · intro htail a ha
            rcases List.mem_cons.mp ha with rfl | hmem2
            · exact hpc
            · exact htail a hmem2
          · intro hall a ha
            exact hall a (List.mem_cons_of_mem p ha)

/-- The central characterization: on a well-formed node list, `isVisible`
holds iff the depth limit passes, the value threshold passes, and no ancestor
lies in the collapse set. -/
theorem isVisible_iff {ns : List Node} (hwf : WellFormed ns) (coll : Finset Nat)
    (maxDepth : Nat) (minValue : ℚ) {n : Node} (hn : n ∈ ns) :
    isVisible (lookupId ns) coll maxDepth minValue n = true
      ↔ (n.depth ≤ maxDepth ∧ minValue ≤ n.value
          ∧ ∀ a ∈ ancestorList ns n.id, a ∉ coll) := by
  unfold isVisible
  by_cases h1 : n.depth > maxDepth
  · rw [if_pos h1]
    constructor
    · intro hfalse
      simp at hfalse
    · intro hall
      exact absurd hall.1 (by omega)
  · rw [if_neg h1]
    by_cases h2 : n.value < minValue
    · rw [if_pos h2]
      constructor
      · intro hfalse
        simp at hfalse
      · intro hall
        exact absurd hall.2.1 (not_le.mpr h2)
    · rw [if_neg h2]
      have hfd : chainDepth ns n.id ≤ maxDepth := by
        have := hwf.2.2 n hn
        omega
      rw [ancWalk_iff hwf coll n hn maxDepth hfd]
      constructor
      · intro hall
        exact ⟨by omega, le_of_not_lt h2, hall⟩
      · intro hall
        exact hall.2.2

theorem boolEq_of_iff {a b : Bool} (h : a = true ↔ b = true) : a = b := by
  cases a <;> cases b <;> simp_all

theorem wf_id_le {ns : List Node}
    (hmap : ns.map (fun n => n.id) = List.range' 1 ns.length)
    {n : Node} (hn : n ∈ ns) : 1 ≤ n.id ∧ n.id ≤ ns.length := by
  have hmm : n.id ∈ ns.map (fun n => n.id) := List.mem_map_of_mem _ hn
  rw [hmap] at hmm
  simp only [List.mem_range'_1] at hmm
  omega

theorem wellFormed_depth_pos {ns : List Node} (hwf : WellFormed ns)
    {n : Node} (hn : n ∈ ns) (h2 : 2 ≤ n.id) : 1 ≤ n.depth := by
  obtain ⟨hmap, hok, hdep⟩ := hwf
  have hb := wf_id_le hmap hn
  have h1 := one_mem_ancestorList hmap hok n.id h2 hb.2
  have hlen : 0 < (ancestorList ns n.id).length :=
    List.length_pos.mpr (List.ne_nil_of_mem h1)
  rw [hdep n hn]
  exact hlen

theorem mem_id_one_eq_root {ns : List Node}
    (hmap : ns.map (fun n => n.id) = List.range' 1 ns.length)
    (hhead : ns.head? = some rootNode)
    {n : Node} (hn : n ∈ ns) (hid : n.id = 1) : n = rootNode := by
  have hnd : (ns.map (fun n => n.id)).Nodup := hmap ▸ List.nodup_range' 1 ns.length
  have h1 := lookupId_of_mem hnd hn
  rw [hid] at h1
  cases ns with
  | nil => cases hn
  | cons a t =>
    have ha : a = rootNode := by simpa using hhead
    have h2 : lookupId (a :: t) 1 = some a := by
      unfold lookupId
      rw [List.find?_cons_of_pos _ (by simp [ha, rootNode])]
    rw [h2] at h1
    rw [← ha]
    exact (Option.some_inj.mp h1).symm

/-- Every node of the final list arises from a raw node with the same id,
value, parent and level. -/
theorem generateTree_mem_raw (powBias powVal : ℚ → ℚ) (total mc seed : Nat) :
    ∀ m ∈ generateTree powBias powVal total mc seed,
      ∃ n0 ∈ generateRaw powBias powVal total mc seed,
        m.id = n0.id ∧ m.value = n0.value ∧ m.parentId = n0.parentId
        ∧ m.level = n0.level := by
  intro m hm
  have hm2 : m ∈ markHasChildren (layoutNodes
      ((generateRaw powBias powVal total mc seed).map
        (fun n => { n with depth := (bfsDepth
          (childrenIds (generateRaw powBias powVal total mc seed))
          (generateRaw powBias powVal total mc seed).length [1] (fun _ => 0) n.id) }))) := hm
  unfold markHasChildren at hm2
  obtain ⟨z, hz, hzm⟩ := List.mem_map.mp hm2
  unfold layoutNodes at hz
  obtain ⟨y, hy, hyz⟩ := List.mem_map.mp hz
  obtain ⟨n0, hn0, hny⟩ := List.mem_map.mp hy
  refine ⟨n0, hn0, ?_, ?_, ?_, ?_⟩ <;> rw [← hzm, ← hyz, ← hny] <;> rfl

/-- The depth of the (unique) id-1 node of a well-formed list is 0. -/
theorem wellFormed_root_depth {ns : List Node} (hwf : WellFormed ns)
    {n : Node} (hn : n ∈ ns) (hid : n.id = 1) : n.depth = 0 := by
  obtain ⟨hmap, hok, hdep⟩ := hwf
  have hd := hdep n hn
  rw [hd, hid]
  unfold chainDepth ancestorList
  rw [ancChain_eq_nil (parOf_one hmap hok) 1]
  rfl

/-! ### Claim C1 -/

/-- C1: on a well-formed node list, `isVisible n` is true iff
`n.depth ≤ maxDepth`, `minValue ≤ n.value`, and no ancestor of `n` — its full
parent chain up to the root — lies in the collapse set.  The node's own id is
never in that chain, so a node whose id is collapsed is still visible itself,
and the `maxDepth`-bounded walk of the source decides the same predicate as
the unbounded ancestor walk. -/
theorem C1_isVisible_char {ns : List Node} (hwf : WellFormed ns)
    (coll : Finset Nat) (maxDepth : Nat) (minValue : ℚ) {n : Node} (hn : n ∈ ns) :
    (isVisible (lookupId ns) coll maxDepth minValue n = true
      ↔ (n.depth ≤ maxDepth ∧ minValue ≤ n.value
          ∧ ∀ a ∈ ancestorList ns n.id, a ∉ coll))
    ∧ n.id ∉ ancestorList ns n.id := by
  refine ⟨isVisible_iff hwf coll maxDepth minValue hn, ?_⟩
  intro hmem
  have := ancestorList_lt hwf.1 hwf.2.1 n.id n.id hmem
  omega

theorem C1_witness :
    (WellFormed chain3 ∧ node3 ∈ chain3)
    ∧ ((isVisible (lookupId chain3) {2} 6 0 node3 = true
        ↔ (node3.depth ≤ 6 ∧ (0 : ℚ) ≤ node3.value
            ∧ ∀ a ∈ ancestorList chain3 node3.id, a ∉ ({2} : Finset Nat)))
      ∧ node3.id ∉ ancestorList chain3 node3.id) :=
  ⟨⟨by decide, by decide⟩, C1_isVisible_char (by decide) {2} 6 0 (by decide)⟩

/-- C3: for every `total ≥ 1`, `maxChildren ≥ 1` and seed — and for any
semantics of the two floating-point power calls — `generateTree` returns a
well-formed rooted tree in the sense of `TreeSpec`. -/
theorem C3_generateTree_wellFormed (powBias powVal : ℚ → ℚ) (total mc seed : Nat)
    (ht : 1 ≤ total) (hmc : 1 ≤ mc) :
    TreeSpec (generateTree powBias powVal total mc seed) total := by
  obtain ⟨hwf, hlen⟩ := generateTree_wf powBias powVal total mc seed
  have hlen2 : (generateTree powBias powVal total mc seed).length = total := by omega
  obtain ⟨hmap, hok, hdep⟩ := hwf
  have hnd : ((generateTree powBias powVal total mc seed).map (fun n => n.id)).Nodup :=
    hmap ▸ List.nodup_range' 1 _
  refine ⟨?_, ?_, ?_, ?_, hdep, ?_, ?_⟩
  · rw [hmap, hlen2]
  · intro n hn
    have hb := hok n hn
    unfold parentOkB at hb
    constructor
    · intro hp
      rw [hp] at hb
      simpa using hb
    · intro h1
      cases hp : n.parentId with
      | none => rfl
      | some p =>
        rw [hp] at hb
        simp only [Bool.and_eq_true, decide_eq_true_eq] at hb
        omega
  · intro n hn h1
    exact wellFormed_root_depth ⟨hmap, hok, hdep⟩ hn h1
  · intro n hn h2
    have hb := hok n hn
    unfold parentOkB at hb
    cases hp : n.parentId with
    | none =>
      rw [hp] at hb
      simp only [decide_eq_true_eq] at hb
      omega
    | some p =>
      rw [hp] at hb
      simp only [Bool.and_eq_true, decide_eq_true_eq] at hb
      have hble := wf_id_le hmap hn
      refine ⟨p, rfl, by omega, by omega, ?_⟩
      rw [hmap]
      simp only [List.mem_range'_1]
      omega
  · intro n hn hmem
    have := ancestorList_lt hmap hok n.id n.id hmem
    omega
  · intro n hn p hp
    have hpar : parOf (generateTree powBias powVal total mc seed) n.id = some p := by
      rw [parOf_of_mem hnd hn]
      exact hp
    have hpd := parOf_dec hmap hok n.id p hpar
    have hble := wf_id_le hmap hn
    obtain ⟨m, hl, hmi, hmmem⟩ := lookupId_exists hmap hpd.1 (by omega)
    refine ⟨m, hmmem, hmi, ?_⟩
    rw [hdep n hn, hdep m hmmem, hmi]
    unfold chainDepth ancestorList
    exact ancChain_length_succ (parOf_dec hmap hok) hpar

theorem C3_witness :
    ((1 : Nat) ≤ 3 ∧ (1 : Nat) ≤ 2)
    ∧ TreeSpec (generateTree (fun r => r) (fun r => r) 3 2 5) 3 :=
  ⟨⟨by decide, by decide⟩,
    C3_generateTree_wellFormed (fun r => r) (fun r => r) 3 2 5 (by decide) (by decide)⟩

/-! ### Claim C5 -/

set_option maxRecDepth 10000 in
unseal Rat.mul Rat.inv Rat.add Rat.sub Rat.ofScientific in
/-- C5 counterexample: in the generated 2-node tree (seed 42) the root has
value 0, and with `maxDepth = 0`, `minValue = 1` and an empty collapse set the
root itself fails the value filter — so `maxDepth = 0` does not make the root
visible "regardless of the value filter". -/
theorem C5_counterexample :
    (treeC5.headD rootNode).id = 1 ∧ (treeC5.headD rootNode).depth = 0
    ∧ isVisible (lookupId treeC5) ∅ 0 1 (treeC5.headD rootNode) = false := by decide

/-- C5 amended: with `maxDepth = 0` a node is visible iff its depth is 0 and
its value passes the threshold — the collapse set is irrelevant; in any
generated tree the root (id 1) has depth 0 and value 0 while every other node
has depth ≥ 1, so only the root can be visible, and only when `minValue ≤ 0`. -/
theorem C5_amended (powBias powVal : ℚ → ℚ) (total mc seed : Nat)
    (byId : Nat → Option Node) (coll : Finset Nat) (minValue : ℚ) :
    (∀ n : Node, isVisible byId coll 0 minValue n
        = (decide (n.depth = 0) && decide (minValue ≤ n.value)))
    ∧ (∀ n ∈ generateTree powBias powVal total mc seed,
        n.id = 1 → n.depth = 0 ∧ n.value = 0)
    ∧ (∀ n ∈ generateTree powBias powVal total mc seed, 2 ≤ n.id → 1 ≤ n.depth) := by
  refine ⟨?_, ?_, ?_⟩
  · intro n
    unfold isVisible
    rcases Nat.eq_zero_or_pos n.depth with hd | hd
    · rw [if_neg (by omega)]
      by_cases hv : n.value < minValue
      · rw [if_pos hv]
        have hv2 : decide (minValue ≤ n.value) = false := by
          simp [not_le.mpr hv]
        rw [hv2, Bool.and_false]
      · rw [if_neg hv]
        have h1 : decide (n.depth = 0) = true := by simp [hd]
        have h2 : decide (minValue ≤ n.value) = true := by simp [not_lt.mp hv]
        rw [h1, h2]
        rfl
    · rw [if_pos (by omega)]
      have h1 : decide (n.depth = 0) = false := by
        simp only [decide_eq_false_iff_not]
        omega
      rw [h1, Bool.false_and]
  · intro n hn h1
    obtain ⟨n0, hn0, hid0, hval0, _, _⟩ :=
      generateTree_mem_raw powBias powVal total mc seed n hn
    obtain ⟨⟨hmapr, hheadr, hokr⟩, hlenr⟩ := generateRaw_spec powBias powVal total mc seed
    have hroot : n0 = rootNode := mem_id_one_eq_root hmapr hheadr hn0 (by omega)
    refine ⟨wellFormed_root_depth (generateTree_wf powBias powVal total mc seed).1 hn h1, ?_⟩
    rw [hval0, hroot]
    rfl
  · intro n hn h2
    exact wellFormed_depth_pos (generateTree_wf powBias powVal total mc seed).1 hn h2

/-- C7: collapsing a not-yet-collapsed node hides exactly its descendants,
leaves every other node (itself, its ancestors, unrelated nodes) unchanged,
and expanding it again restores exactly the previous state; collapsing the
root hides every other node. -/
theorem C7_collapse_toggle {ns : List Node} (hwf : WellFormed ns)
    {c : Node} (hc : c ∈ ns) (coll : Finset Nat) (hnotin : c.id ∉ coll)
    (maxDepth : Nat) (minValue : ℚ) :
    CollapseSpec ns c coll maxDepth minValue := by
  have ha : ∀ d ∈ ns, c.id ∈ ancestorList ns d.id →
      isVisible (lookupId ns) (insert c.id coll) maxDepth minValue d = false := by
    intro d hd hanc
    cases hv : isVisible (lookupId ns) (insert c.id coll) maxDepth minValue d with
    | false => rfl
    | true =>
      have hall := (isVisible_iff hwf (insert c.id coll) maxDepth minValue hd).mp hv
      exact absurd (Finset.mem_insert_self c.id coll) (hall.2.2 c.id hanc)
  have hb : ∀ d ∈ ns, c.id ∉ ancestorList ns d.id →
      isVisible (lookupId ns) (insert c.id coll) maxDepth minValue d
        = isVisible (lookupId ns) coll maxDepth minValue d := by
    intro d hd hanc
    apply boolEq_of_iff
    rw [isVisible_iff hwf (insert c.id coll) maxDepth minValue hd,
      isVisible_iff hwf coll maxDepth minValue hd]
    constructor
    · rintro ⟨h1, h2, h3⟩
      exact ⟨h1, h2, fun a ha2 hmem => h3 a ha2 (Finset.mem_insert_of_mem hmem)⟩
    · rintro ⟨h1, h2, h3⟩
      refine ⟨h1, h2, fun a ha2 hmem => ?_⟩
      rcases Finset.mem_insert.mp hmem with rfl | hmm
      · exact hanc ha2
      · exact h3 a ha2 hmm
  refine ⟨ha, hb, Finset.erase_insert hnotin, ?_, ?_, ?_⟩
  · intro d hd hdc
    apply hb d hd
    intro hcd
    have h1 := ancestorList_lt hwf.1 hwf.2.1 c.id d.id hdc
    have h2 := ancestorList_lt hwf.1 hwf.2.1 d.id c.id hcd
    omega
  · intro hmem
    have := ancestorList_lt hwf.1 hwf.2.1 c.id c.id hmem
    omega
  · intro hcid d hd h2
    apply ha d hd
    rw [hcid]
    exact one_mem_ancestorList hwf.1 hwf.2.1 d.id h2 (wf_id_le hwf.1 hd).2

theorem C7_witness :
    (WellFormed chain3 ∧ node2 ∈ chain3 ∧ node2.id ∉ (∅ : Finset Nat))
    ∧ CollapseSpec chain3 node2 ∅ 6 0 :=
  ⟨⟨by decide, by decide, by decide⟩,
    C7_collapse_toggle (by decide) (by decide) ∅ (by decide) 6 0⟩

/-! ### Claim C9 -/

set_option maxRecDepth 10000 in
unseal Rat.mul Rat.inv Rat.add Rat.sub Rat.ofScientific in
/-- C9 counterexample: at the invalid configuration `total = 0` (and even
`maxChildren = 0`) the generator silently returns the perfectly normal
one-node list containing just the root — there is no rejection or error
path. -/
theorem C9_counterexample :
    (generateTree (fun r => r) (fun r => r) 0 0 42).map (fun n => n.id) = [1]
    ∧ (generateTree (fun r => r) (fun r => r) 0 0 42).length = 1 := by decide

/-- C9 amended: `generateTree` performs no input validation at all: for every
configuration — valid or invalid — it is a total function returning a node
list whose ids are exactly `1..max 1 total`; invalid inputs are silently
absorbed (a `total < 1` still yields the root-only list), never rejected with
an error. -/
theorem C9_no_validation (powBias powVal : ℚ → ℚ) (total mc seed : Nat) :
    (generateTree powBias powVal total mc seed).map (fun n => n.id)
      = List.range' 1 (max 1 total) := by
  obtain ⟨hwf, hlen⟩ := generateTree_wf powBias powVal total mc seed
  rw [hwf.1, hlen]

/-! ### Claim C2 -/

/-- C2: wheel zoom is anchored exactly — for every camera with positive
scale, every pointer position and every zoom factor (including when the new
scale is clamped into `[0.1, 3]`), the world point under the pointer is the
same before and after the operation, in exact rational arithmetic. -/
theorem C2_zoom_anchored (t : Camera) (mx my factor : ℚ) (hs : 0 < t.scale) :
    screenToWorld (onWheelZoom t mx my factor) mx my = screenToWorld t mx my := by
  have hpos : (0 : ℚ) < max 0.1 (min 3 (t.scale * factor)) :=
    lt_of_lt_of_le (by norm_num) (le_max_left 0.1 (min 3 (t.scale * factor)))
  have hne : max 0.1 (min 3 (t.scale * factor)) ≠ 0 := ne_of_gt hpos
  have hs2 : t.scale ≠ 0 := ne_of_gt hs
  unfold onWheelZoom screenToWorld
  simp only [Prod.mk.injEq]
  constructor
  · field_simp
    ring
  · field_simp
    ring

theorem C2_witness :
    (0 : ℚ) < initialCamera.scale
    ∧ screenToWorld (onWheelZoom initialCamera 100 50 2) 100 50
      = screenToWorld initialCamera 100 50 :=
  ⟨by norm_num [initialCamera],
    C2_zoom_anchored initialCamera 100 50 2 (by norm_num [initialCamera])⟩

/-! ### Claim C10 -/

theorem onWheelZoom_scale_bounds (t : Camera) (mx my factor : ℚ) :
    0.1 ≤ (onWheelZoom t mx my factor).scale ∧ (onWheelZoom t mx my factor).scale ≤ 3 := by
  unfold onWheelZoom
  constructor
  · exact le_max_left 0.1 (min 3 (t.scale * factor))
  · exact max_le (by norm_num) (min_le_left 3 (t.scale * factor))

theorem fitToContent_scale_cases (ns : List Node) (vis : Node → Bool) (W H pad : ℚ)
    (t : Camera) :
    (fitToContent ns vis W H pad t).scale = t.scale
    ∨ (0.1 ≤ (fitToContent ns vis W H pad t).scale
        ∧ (fitToContent ns vis W H pad t).scale ≤ 2.5) := by
  unfold fitToContent
  rcases h : visBBox ns vis with - | ⟨x0, x1, y0, y1⟩
  · left
    rfl
  · right
    constructor
    · exact le_max_left 0.1 _
    · exact max_le (by norm_num) (min_le_left 2.5 _)

theorem focusOnFirstMatch_scale_cases (ns : List Node) (query : String) (W H : ℚ)
    (t : Camera) :
    (focusOnFirstMatch ns query W H t).scale = t.scale
    ∨ (focusOnFirstMatch ns query W H t).scale = max 0.6 t.scale := by
  unfold focusOnFirstMatch
  by_cases hq : lowerStr (trimStr query) = ""
  · rw [if_pos hq]
    left
    rfl
  · rw [if_neg hq]
    rcases h : ns.find? (matchesQuery (lowerStr (trimStr query))) with - | n
    · left
      rfl
    · right
      rfl

theorem applyOp_scale_bounds (t : Camera) (op : CamOp)
    (h1 : 0.1 ≤ t.scale) (h2 : t.scale ≤ 3) :
    0.1 ≤ (applyOp t op).scale ∧ (applyOp t op).scale ≤ 3 := by
  cases op with
  | pan dx dy => exact ⟨h1, h2⟩
  | wheel mx my factor => exact onWheelZoom_scale_bounds t mx my factor
  | fit ns vis W H pad =>
    rcases fitToContent_scale_cases ns vis W H pad t with h | h
    · rw [show (applyOp t (CamOp.fit ns vis W H pad)).scale
        = (fitToContent ns vis W H pad t).scale from rfl, h]
      exact ⟨h1, h2⟩
    · exact ⟨h.1, le_trans h.2 (by norm_num)⟩
  | focus ns query W H =>
    rcases focusOnFirstMatch_scale_cases ns query W H t with h | h
    · rw [show (applyOp t (CamOp.focus ns query W H)).scale
        = (focusOnFirstMatch ns query W H t).scale from rfl, h]
      exact ⟨h1, h2⟩
    · rw [show (applyOp t (CamOp.focus ns query W H)).scale
        = (focusOnFirstMatch ns query W H t).scale from rfl, h]
      constructor
      · exact le_trans (by norm_num) (le_max_left 0.6 t.scale)
      · exact max_le (by norm_num) h2

theorem foldl_scale_bounds (ops : List CamOp) :
    ∀ t : Camera, 0.1 ≤ t.scale → t.scale ≤ 3 →
      0.1 ≤ (ops.foldl applyOp t).scale ∧ (ops.foldl applyOp t).scale ≤ 3 := by
  induction ops with
  | nil => intro t h1 h2; exact ⟨h1, h2⟩
  | cons op rest ih =>
    intro t h1 h2
    have hstep := applyOp_scale_bounds t op h1 h2
    exact ih _ hstep.1 hstep.2

/-- C10: starting from the initial camera (scale 0.6) and applying any
sequence of pan, wheel-zoom, fit-to-content and search-focus operations, the
scale always stays in `[0.1, 3]` (in particular strictly positive); moreover
the operations use different sub-ranges: a wheel zoom always lands in
`[0.1, 3]`, a non-trivial fit lands in `[0.1, 2.5]`, and a successful focus
sets the scale to `max 0.6 scale` — at least 0.6. -/
theorem C10_scale_invariant (ops : List CamOp) :
    (0.1 ≤ (ops.foldl applyOp initialCamera).scale
      ∧ (ops.foldl applyOp initialCamera).scale ≤ 3)
    ∧ (∀ (t : Camera) (mx my factor : ℚ),
        0.1 ≤ (onWheelZoom t mx my factor).scale
        ∧ (onWheelZoom t mx my factor).scale ≤ 3)
    ∧ (∀ (ns : List Node) (vis : Node → Bool) (W H pad : ℚ) (t : Camera),
        (fitToContent ns vis W H pad t).scale = t.scale
        ∨ (0.1 ≤ (fitToContent ns vis W H pad t).scale
            ∧ (fitToContent ns vis W H pad t).scale ≤ 2.5))
    ∧ (∀ (ns : List Node) (query : String) (W H : ℚ) (t : Camera),
        (focusOnFirstMatch ns query W H t).scale = t.scale
        ∨ (focusOnFirstMatch ns query W H t).scale = max 0.6 t.scale) :=
  ⟨foldl_scale_bounds ops initialCamera (by norm_num [initialCamera])
      (by norm_num [initialCamera]),
    onWheelZoom_scale_bounds,
    fitToContent_scale_cases,
    focusOnFirstMatch_scale_cases⟩

/-! ### Claim C4 -/

theorem listMin_le_start (a : ℚ) (l : List ℚ) : listMin a l ≤ a := by
  induction l generalizing a with
  | nil => exact le_refl a
  | cons b t ih => exact le_trans (ih (min a b)) (min_le_left a b)

theorem listMin_le_mem (a : ℚ) (l : List ℚ) : ∀ x ∈ l, listMin a l ≤ x := by
  induction l generalizing a with
  | nil =>
    intro x hx
    cases hx
  | cons b t ih =>
    intro x hx
    rcases List.mem_cons.mp hx with rfl | hx2
    · exact le_trans (listMin_le_start (min a x) t) (min_le_right a x)
    · exact ih (min a b) x hx2

theorem le_listMax_start (a : ℚ) (l : List ℚ) : a ≤ listMax a l := by
  induction l generalizing a with
  | nil => exact le_refl a
  | cons b t ih => exact le_trans (le_max_left a b) (ih (max a b))

theorem le_listMax_mem (a : ℚ) (l : List ℚ) : ∀ x ∈ l, x ≤ listMax a l := by
  induction l generalizing a with
  | nil =>
    intro x hx
    cases hx
  | cons b t ih =>
    intro x hx
    rcases List.mem_cons.mp hx with rfl | hx2
    · exact le_trans (le_max_right a x) (le_listMax_start (max a x) t)
    · exact ih (max a b) x hx2

theorem visBBox_bounds {ns : List Node} {vis : Node → Bool} {x0 x1 y0 y1 : ℚ}
    (hbb : visBBox ns vis = some (x0, x1, y0, y1)) :
    ∀ q ∈ visiblePts ns vis, x0 ≤ q.1 ∧ q.1 ≤ x1 ∧ y0 ≤ q.2 ∧ q.2 ≤ y1 := by
  unfold visBBox at hbb
  cases hpts : visiblePts ns vis with
  | nil =>
    rw [hpts] at hbb
    cases hbb
  | cons pt pts =>
    rw [hpts] at hbb
    have h4 := Option.some_inj.mp hbb
    simp only [Prod.mk.injEq] at h4
    obtain ⟨e0, e1, e2, e3⟩ := h4
    intro q hq
    rw [← e0, ← e1, ← e2, ← e3]
    rcases List.mem_cons.mp hq with rfl | hq2
    · exact ⟨listMin_le_start _ _, le_listMax_start _ _,
        listMin_le_start _ _, le_listMax_start _ _⟩
    · exact ⟨listMin_le_mem _ _ q.1 (List.mem_map_of_mem Prod.fst hq2),
        le_listMax_mem _ _ q.1 (List.mem_map_of_mem Prod.fst hq2),
        listMin_le_mem _ _ q.2 (List.mem_map_of_mem Prod.snd hq2),
        le_listMax_mem _ _ q.2 (List.mem_map_of_mem Prod.snd hq2)⟩

set_option maxHeartbeats 1000000 in
/-- C4 amended: when the visible bounding box is non-empty and the fit scale
is not raised by the 0.1 lower clamp (i.e. both `(W-2·pad)/w ≥ 0.1` and
`(H-2·pad)/h ≥ 0.1` for the padded box dimensions `w`, `h`), every visible
node maps under the resulting camera into `[pad, W-pad] × [pad, H-pad]`. -/
theorem C4_fit_inside (ns : List Node) (vis : Node → Bool) (W H pad : ℚ)
    (t : Camera) (x0 x1 y0 y1 : ℚ)
    (hbb : visBBox ns vis = some (x0, x1, y0, y1))
    (hx : 0.1 ≤ (W - pad * 2) / max 1 (x1 - x0))
    (hy : 0.1 ≤ (H - pad * 2) / max 1 (y1 - y0))
    {n : Node} (hmem : n ∈ ns) (hv : vis n = true) :
    pad ≤ (worldToScreen (fitToContent ns vis W H pad t) n.x n.y).1
    ∧ (worldToScreen (fitToContent ns vis W H pad t) n.x n.y).1 ≤ W - pad
    ∧ pad ≤ (worldToScreen (fitToContent ns vis W H pad t) n.x n.y).2
    ∧ (worldToScreen (fitToContent ns vis W H pad t) n.x n.y).2 ≤ H - pad := by
  have hq : ((n.x, n.y) : ℚ × ℚ) ∈ visiblePts ns vis := by
    unfold visiblePts
    exact List.mem_map_of_mem _ (List.mem_filter.mpr ⟨hmem, hv⟩)
  obtain ⟨hx0, hx1, hy0, hy1⟩ := visBBox_bounds hbb _ hq
  simp only at hx0 hx1 hy0 hy1
  simp only [fitToContent, hbb, worldToScreen]
  set w : ℚ := max 1 (x1 - x0) with hwdef
  set wy : ℚ := max 1 (y1 - y0) with hwydef
  set sx : ℚ := (W - pad * 2) / w with hsxdef
  set sy : ℚ := (H - pad * 2) / wy with hsydef
  set s : ℚ := max 0.1 (min 2.5 (min sx sy)) with hsdef
  have hw1 : (1 : ℚ) ≤ w := le_max_left 1 (x1 - x0)
  have hwy1 : (1 : ℚ) ≤ wy := le_max_left 1 (y1 - y0)
  have hwpos : (0 : ℚ) < w := lt_of_lt_of_le one_pos hw1
  have hwypos : (0 : ℚ) < wy := lt_of_lt_of_le one_pos hwy1
  have hmin : (0.1 : ℚ) ≤ min 2.5 (min sx sy) := le_min (by norm_num) (le_min hx hy)
  have hseq : s = min 2.5 (min sx sy) := hsdef.trans (max_eq_right hmin)
  have hs01 : (0.1 : ℚ) ≤ s := hsdef ▸ le_max_left 0.1 (min 2.5 (min sx sy))
  have hs0 : (0 : ℚ) < s := lt_of_lt_of_le (by norm_num) hs01
  have hssx : s ≤ sx := by
    rw [hseq]
    exact le_trans (min_le_right 2.5 (min sx sy)) (min_le_left sx sy)
  have hssy : s ≤ sy := by
    rw [hseq]
    exact le_trans (min_le_right 2.5 (min sx sy)) (min_le_right sx sy)
  have hsxw : sx * w = W - pad * 2 := by
    rw [hsxdef]
    exact div_mul_cancel₀ (W - pad * 2) (ne_of_gt hwpos)
  have hsyw : sy * wy = H - pad * 2 := by
    rw [hsydef]
    exact div_mul_cancel₀ (H - pad * 2) (ne_of_gt hwypos)
  have hxa : n.x - (x0 + x1) / 2 ≤ w / 2 := by
    have hle : x1 - x0 ≤ w := le_max_right 1 (x1 - x0)
    linarith
  have hxb : (x0 + x1) / 2 - n.x ≤ w / 2 := by
    have hle : x1 - x0 ≤ w := le_max_right 1 (x1 - x0)
    linarith
  have hya : n.y - (y0 + y1) / 2 ≤ wy / 2 := by
    have hle : y1 - y0 ≤ wy := le_max_right 1 (y1 - y0)
    linarith
  have hyb : (y0 + y1) / 2 - n.y ≤ wy / 2 := by
    have hle : y1 - y0 ≤ wy := le_max_right 1 (y1 - y0)
    linarith
  have hswx : s * (w / 2) ≤ (W - pad * 2) / 2 := by
    have h1 : s * (w / 2) ≤ sx * (w / 2) :=
      mul_le_mul_of_nonneg_right hssx (by linarith)
    have h2 : sx * (w / 2) = (W - pad * 2) / 2 := by
      rw [show sx * (w / 2) = sx * w / 2 by ring, hsxw]
    linarith
  have hswy : s * (wy / 2) ≤ (H - pad * 2) / 2 := by
    have h1 : s * (wy / 2) ≤ sy * (wy / 2) :=
      mul_le_mul_of_nonneg_right hssy (by linarith)
    have h2 : sy * (wy / 2) = (H - pad * 2) / 2 := by
      rw [show sy * (wy / 2) = sy * wy / 2 by ring, hsyw]
    linarith
  have hm1 : s * (n.x - (x0 + x1) / 2) ≤ s * (w / 2) :=
    mul_le_mul_of_nonneg_left hxa (le_of_lt hs0)
  have hm2 : s * ((x0 + x1) / 2 - n.x) ≤ s * (w / 2) :=
    mul_le_mul_of_nonneg_left hxb (le_of_lt hs0)
  have hm3 : s * (n.y - (y0 + y1) / 2) ≤ s * (wy / 2) :=
    mul_le_mul_of_nonneg_left hya (le_of_lt hs0)
  have hm4 : s * ((y0 + y1) / 2 - n.y) ≤ s * (wy / 2) :=
    mul_le_mul_of_nonneg_left hyb (le_of_lt hs0)
  refine ⟨?_, ?_, ?_, ?_⟩
  · linarith [hm2, hswx]
  · linarith [hm1, hswx]
  · linarith [hm4, hswy]
  · linarith [hm3, hswy]

set_option maxRecDepth 4000 in
unseal Rat.mul Rat.inv Rat.add Rat.sub Rat.ofScientific in
/-- C4 counterexample: with viewport 100×100 and pad 40 the two visible nodes
(non-empty, non-degenerate bounding box 1000×10) force a fit scale below 0.1;
the lower clamp raises it back to 0.1 and the left node then maps to screen
x = 0, outside `[pad, W - pad] = [40, 60]` — the claim fails as stated. -/
theorem C4_counterexample :
    visBBox nsC4 (fun _ => true) = some (-500, 500, 0, 10)
    ∧ (-500 : ℚ) < 500 ∧ (0 : ℚ) < 10
    ∧ (worldToScreen (fitToContent nsC4 (fun _ => true) 100 100 40 initialCamera)
        nodeA.x nodeA.y).1 < 40 := by decide

unseal Rat.mul Rat.inv Rat.add Rat.sub Rat.ofScientific in
theorem C4_witness :
    (visBBox nsC4 (fun _ => true) = some (-500, 500, 0, 10)
      ∧ (0.1 : ℚ) ≤ (1400 - 40 * 2) / max 1 (500 - (-500 : ℚ))
      ∧ (0.1 : ℚ) ≤ (1400 - 40 * 2) / max 1 (10 - (0 : ℚ))
      ∧ nodeA ∈ nsC4 ∧ (fun _ : Node => true) nodeA = true)
    ∧ (40 ≤ (worldToScreen (fitToContent nsC4 (fun _ => true) 1400 1400 40 initialCamera)
          nodeA.x nodeA.y).1
      ∧ (worldToScreen (fitToContent nsC4 (fun _ => true) 1400 1400 40 initialCamera)
          nodeA.x nodeA.y).1 ≤ 1400 - 40
      ∧ 40 ≤ (worldToScreen (fitToContent nsC4 (fun _ => true) 1400 1400 40 initialCamera)
          nodeA.x nodeA.y).2
      ∧ (worldToScreen (fitToContent nsC4 (fun _ => true) 1400 1400 40 initialCamera)
          nodeA.x nodeA.y).2 ≤ 1400 - 40) :=
  ⟨⟨by decide, by decide, by decide, by decide, rfl⟩,
    C4_fit_inside nsC4 (fun _ => true) 1400 1400 40 initialCamera (-500) 500 0 10
      (by decide) (by decide) (by decide) (by decide) rfl⟩

set_option maxRecDepth 10000 in
unseal Rat.mul Rat.inv Rat.add Rat.sub Rat.ofScientific in
/-- C8 counterexample: with `minValue = 1` every node of the one-node tree is
filtered out — the visible set is empty — yet `focusOnFirstMatch` with the
matching query `"root"` still moves the camera: the search ignores the
visibility filter, so the claimed no-op fails as stated. -/
theorem C8_counterexample :
    treeC8.filter (isVisible (lookupId treeC8) ∅ 6 1) = []
    ∧ focusOnFirstMatch treeC8 "root" 800 600 initialCamera ≠ initialCamera := by decide

/-- C8 amended: both operations are total; `fitToContent` leaves the camera
exactly unchanged when no node is visible, and `focusOnFirstMatch` leaves it
exactly unchanged when the trimmed lowercased query is empty or matches no
node by name-substring or id-string — visibility plays no role in the
search, so an empty visible set alone does not make the focus a no-op. -/
theorem C8_noop (ns : List Node) (vis : Node → Bool) (W H pad : ℚ)
    (query : String) (t : Camera)
    (hfit : ns.filter vis = [])
    (hfocus : lowerStr (trimStr query) = ""
      ∨ ns.find? (matchesQuery (lowerStr (trimStr query))) = none) :
    fitToContent ns vis W H pad t = t ∧ focusOnFirstMatch ns query W H t = t := by
  constructor
  · simp [fitToContent, visBBox, visiblePts, hfit]
  · simp only [focusOnFirstMatch]
    rcases hfocus with hq | hnf
    · rw [if_pos hq]
    · by_cases hq : lowerStr (trimStr query) = ""
      · rw [if_pos hq]
      · rw [if_neg hq, hnf]

set_option maxRecDepth 10000 in
unseal Rat.mul Rat.inv Rat.add Rat.sub Rat.ofScientific in
theorem C8_witness :
    (treeC8.filter (isVisible (lookupId treeC8) ∅ 6 1) = []
      ∧ (lowerStr (trimStr "zzz") = ""
        ∨ treeC8.find? (matchesQuery (lowerStr (trimStr "zzz"))) = none))
    ∧ (fitToContent treeC8 (isVisible (lookupId treeC8) ∅ 6 1) 800 600 40 initialCamera
        = initialCamera
      ∧ focusOnFirstMatch treeC8 "zzz" 800 600 initialCamera = initialCamera) :=
  ⟨⟨by decide, Or.inr (by decide)⟩,
    C8_noop treeC8 (isVisible (lookupId treeC8) ∅ 6 1) 800 600 40 "zzz" initialCamera
      (by decide) (Or.inr (by decide))⟩

/-! ### Claim C6 -/

set_option maxRecDepth 10000 in
set_option maxHeartbeats 4000000 in
unseal Rat.mul Rat.inv Rat.add Rat.sub Rat.ofScientific in
/-- C6 counterexample: under the uniform-grid probability model the level "A"
is hit by 2720 of the 8000 draw triples — probability 34%, not the claimed
25% (which would be 2000 triples); moreover the outcome is not a function of
a single uniform draw mapped through thresholds: two draw sequences with the
same first value can give different levels. -/
theorem C6_counterexample :
    levelCountGrid "A" = 2720 ∧ ¬ levelCountGrid "A" = 8000 / 4
    ∧ levelFromDraws 0.5 0.3 0.9 = "A" ∧ levelFromDraws 0.5 0.5 0.9 = "C" := by decide

set_option maxRecDepth 10000 in
set_option maxHeartbeats 16000000 in
unseal Rat.mul Rat.inv Rat.add Rat.sub Rat.ofScientific in
/-- C6 amended: the level is decided by up to three fresh uniform draws (one
per tested threshold, as JavaScript evaluates a new `rnd()` in each nested
conditional): S iff the first draw is below 0.15, else A iff the second is
below 0.4, else B iff the third is below 0.7, else C.  Under independent
uniform draws the probabilities are 15% S, 34% A, 35.7% B and 15.3% C —
1200, 2720, 2856 and 1224 of the 8000 grid triples. -/
theorem C6_level_distribution :
    (∀ s : Nat, (drawLevel s).1
        = levelFromDraws (rndOut s) (rndOut (rndNext s)) (rndOut (rndNext (rndNext s))))
    ∧ levelCountGrid "S" = 1200 ∧ levelCountGrid "A" = 2720
    ∧ levelCountGrid "B" = 2856 ∧ levelCountGrid "C" = 1224 := by
  refine ⟨?_, by decide, by decide, by decide, by decide⟩
  intro s
  unfold drawLevel levelFromDraws
  split_ifs <;> rfl

end OrgChart
